import Mathlib
/-!
Verification of the concurrent file-organizing engine (`src/tasks/task_01.py`)
against its natural-language specification.

Shallow embedding conventions:
- A Python string is embedded as `List Char` (`Str`); string literals are
  written via `String.data`.
- A filesystem path (`aiopath.AsyncPath`) is embedded as its list of
  components, `PPath := List Str`; the `/` operator of `pathlib` appends one
  component.
- The destination filesystem state is the finite list of file paths that
  exist (`List PPath`); an existence check is list membership.
- Python's `f"{n}"` decimal rendering of a natural number is embedded by the
  executable function `dec` below.
-/
abbrev Str : Type := List Char
/-- One decimal digit character, as Python's `str(int)` renders it. -/
def digitChar (d : Nat) : Char :=
  match d with
  | 0 => '0' | 1 => '1' | 2 => '2' | 3 => '3' | 4 => '4'
  | 5 => '5' | 6 => '6' | 7 => '7' | 8 => '8' | 9 => '9'
  | _ => '*'
/-- A character is a decimal digit. -/
def isDigitCh (c : Char) : Bool := '0' ≤ c && c ≤ '9'
/-- Fuel-driven core of decimal rendering: most significant digits first. -/
def decCore (fuel : Nat) (n : Nat) : Str :=
  match fuel with
  | 0 => []
  | f + 1 => if n < 10 then [digitChar n] else decCore f (n / 10) ++ [digitChar (n % 10)]
/-- Decimal rendering of a natural number, as Python's `f"{n}"`. -/
def dec (n : Nat) : Str := decCore (n + 1) n
/-- A filesystem path, embedded as its list of components. -/
abbrev PPath : Type := List Str
/-- Embeds `AsyncPath.name`: the last path component (`[]` for the empty path). -/
def pname (p : PPath) : Str := p.getLastD []
/-- Embeds `AsyncPath.with_name`: replace the last component. -/
def pyWithName (p : PPath) (nm : Str) : PPath := p.dropLast ++ [nm]
/-- Split a name at its last dot: `some (b, a)` with `nm = b ++ '.' :: a`
and no dot in `a`; `none` when the name contains no dot.  This mirrors
`name.rfind('.')` in `pathlib`. -/
def splitLastDot : Str → Option (Str × Str)
  | [] => none
  | c :: cs =>
    match splitLastDot cs with
    | some (b, a) => some (c :: b, a)
    | none => if c = '.' then some ([], cs) else none
/-- Embeds the `pathlib` `suffix` of a plain name: the part from the last dot on,
provided the dot is neither the first nor the last character. -/
def pySfx (nm : Str) : Str :=
  match splitLastDot nm with
  | some (b, a) => if b ≠ [] ∧ a ≠ [] then '.' :: a else []
  | none => []
/-- Embeds the `pathlib` `stem` of a plain name: the part before the last dot under the
same proviso, otherwise the whole name. -/
def pyStm (nm : Str) : Str :=
  match splitLastDot nm with
  | some (b, a) => if b ≠ [] ∧ a ≠ [] then b else nm
  | none => nm
/-- Embeds `AsyncPath.with_stem`: `with_name` of the new stem plus the current
suffix (the suffix is recomputed from the current name). -/
def pyWithStem (p : PPath) (s : Str) : PPath := pyWithName p (s ++ pySfx (pname p))
/-- Line 55: the file's extension, its leading dot stripped
(`file.suffix[1:] if file.suffix.startswith(".") else file.suffix`). -/
def fileExtension (file : PPath) : Str :=
  let s := pySfx (pname file)
  if s.head? = some '.' then s.tail else s
/-- Line 56: `file.stem`. -/
def fileName (file : PPath) : Str := pyStm (pname file)
/-- The extension-category folder: `file_extension or "without_extension"`. -/
def catComp (file : PPath) : Str :=
  if fileExtension file = [] then "without_extension".data else fileExtension file
/-- Line 57: the initial destination candidate
`dest / (file_extension or "without_extension") / f"{file_name}.{file_extension}"`. -/
def initialCandidate (file dest : PPath) : PPath :=
  dest ++ [catComp file, fileName file ++ '.' :: fileExtension file]
/-- The stem written on collision try `k`: `f"{file_name} ({rename_tries})"`. -/
def ctrStem (file : PPath) (k : Nat) : Str :=
  fileName file ++ (" (".data ++ dec k ++ ")".data)
/-- The sequence of candidate paths the collision loop visits. -/
def cand (file dest : PPath) : Nat → PPath
  | 0 => initialCandidate file dest
  | k + 1 => pyWithStem (cand file dest k) (ctrStem file (k + 1))
/-- Lines 59–65: the `while await new_file_name.exists()` loop.  The Python
loop has no fuel; it terminates because the candidates are pairwise distinct
(`cand_injective` below) and only finitely many files exist, so
`fs.length + 1` iterations always reach a free candidate
(`file_path_build_spec` below). -/
def buildLoop (fs : List PPath) (file : PPath) (cur : PPath) (tries fuel : Nat) : PPath :=
  match fuel with
  | 0 => cur
  | f + 1 =>
    if cur ∈ fs then
      buildLoop fs file (pyWithStem cur (ctrStem file (tries + 1))) (tries + 1) f
    else cur
/-- Embeds `file_path_build(file, dest)` against the set `fs` of existing files. -/
def file_path_build (fs : List PPath) (file dest : PPath) : PPath :=
  buildLoop fs file (initialCandidate file dest) 0 (fs.length + 1)
/-- The name (last component) of candidate `k`. -/
def candName (file : PPath) : Nat → Str
  | 0 => fileName file ++ '.' :: fileExtension file
  | k + 1 => ctrStem file (k + 1) ++ pySfx (candName file k)
/-- The candidate-name sequence as claim C2 describes it: the stem is
rewritten from the original stem and the suffix is the initial candidate's
suffix, never nested.  (Second definition for the refinement comparison;
the code's own sequence is `candName`.) -/
def claimCandName (file : PPath) : Nat → Str
  | 0 => fileName file ++ '.' :: fileExtension file
  | k + 1 => ctrStem file (k + 1) ++ pySfx (fileName file ++ '.' :: fileExtension file)
/-- Candidate paths of the claimed (non-nesting) sequence. -/
def claimCand (file dest : PPath) (k : Nat) : PPath :=
  (dest ++ [catComp file]) ++ [claimCandName file k]
/-- Probing loop over the claimed candidate sequence. -/
def claimBuildLoop (fs : List PPath) (file dest : PPath) (k fuel : Nat) : PPath :=
  match fuel with
  | 0 => claimCand file dest k
  | f + 1 =>
    if claimCand file dest k ∈ fs then claimBuildLoop fs file dest (k + 1) f
    else claimCand file dest k
/-- The destination namer as claim C2 describes it. -/
def claim_file_path_build (fs : List PPath) (file dest : PPath) : PPath :=
  claimBuildLoop fs file dest 0 (fs.length + 1)
/-- Concrete input refuting the "never nesting suffixes" clause: a source
file literally named `a.` (its `pathlib` stem is `a.`, its suffix empty). -/
def c2file : PPath := ["src".data, "a.".data]
/-- Destination root for the C2 counterexample. -/
def c2dest : PPath := ["dist".data]
/-- Existing destination files for the C2 counterexample: the first two
candidates for `a.` are already taken. -/
def c2fs : List PPath :=
  [["dist".data, "without_extension".data, "a..".data],
   ["dist".data, "without_extension".data, "a. (1)".data]]
/-- One `copy_file` under sequential scheduling (lines 89–101): compute the
destination with `file_path_build`, then `copyfile` creates the file; on an
already-existing path `copyfile` overwrites, which on the path-set level
leaves the set unchanged. -/
def copyStep (destRoot : PPath) (fs : List PPath) (f : PPath) : List PPath × PPath :=
  let d := file_path_build fs f destRoot
  (if d ∈ fs then fs else fs ++ [d], d)
/-- The fan-out of `folder_copy` (line 117) under sequential scheduling of
the copy workers, one legal scheduling of `asyncio.gather`: returns the
final set of destination files and the per-file destinations picked. -/
def seqRun (destRoot : PPath) (fs : List PPath) : List PPath → List PPath × List PPath
  | [] => (fs, [])
  | f :: rest =>
    let s := copyStep destRoot fs f
    let r := seqRun destRoot s.1 rest
    (r.1, s.2 :: r.2)
/-- First source file of the C3 counterexample: `src/a.txt`. -/
def c3f1 : PPath := ["src".data, "a.txt".data]
/-- Second source file of the C3 counterexample: `src/sub/a.txt`, the same
file name in a different source subdirectory. -/
def c3f2 : PPath := ["src".data, "sub".data, "a.txt".data]
/-- The C3 counterexample source tree. -/
def c3files : List PPath := [c3f1, c3f2]
/-- The C3 counterexample destination root. -/
def c3dest : PPath := ["dist".data]
/-- State of one copy worker: program counter (0 before acquiring the lock,
1 holding it, 2 after computing the destination, 3 after the copy, 4 done)
and, once computed, the chosen destination. -/
structure WState where
  pc : Nat
  dst : PPath
deriving DecidableEq
/-- Global state of two concurrent `copy_file` workers that share one
`asyncio.Lock` (their lower-cased names coincide, line 90): the destination
files created so far, whether the lock is held, and both workers. -/
structure CState where
  fs : List PPath
  lock : Bool
  w0 : WState
  w1 : WState
deriving DecidableEq
/-- One atomic step of worker `i` on files `f0`, `f1` with destination root
`dest`.  pc 0: `async with lock` blocks while the lock is held, else
acquires (lines 90–91); pc 1: compute the destination with
`file_path_build` (line 93) — the probe's several awaited existence checks
read a stable filesystem because the only writers are these two workers'
copy steps, which sit inside the same lock; pc 2: `mkdir` plus `copyfile`
(lines 96–98; `copyfile` overwrites an existing path, leaving the path set
unchanged); pc 3: leave the `async with` block, releasing the lock. -/
def cstep (f0 f1 dest : PPath) (s : CState) (i : Bool) : CState :=
  let w := if i then s.w1 else s.w0
  let f := if i then f1 else f0
  let upd := fun (s' : CState) (w' : WState) =>
    if i then { s' with w1 := w' } else { s' with w0 := w' }
  match w.pc with
  | 0 => if s.lock then s else upd { s with lock := true } { w with pc := 1 }
  | 1 => upd s { w with pc := 2, dst := file_path_build s.fs f dest }
  | 2 => upd { s with fs := if w.dst ∈ s.fs then s.fs else s.fs ++ [w.dst] } { w with pc := 3 }
  | 3 => upd { s with lock := false } { w with pc := 4 }
  | _ => s
/-- Initial state: empty destination, lock free, both workers at pc 0. -/
def cinit : CState := ⟨[], false, ⟨0, []⟩, ⟨0, []⟩⟩
/-- Run the two-worker system under a schedule (the list of worker indices
picked by the event loop; scheduling a blocked or finished worker is a
no-op). -/
def crun (f0 f1 dest : PPath) (s : CState) : List Bool → CState
  | [] => s
  | i :: rest => crun f0 f1 dest (cstep f0 f1 dest s i) rest
/-- Destination picked by whichever worker enters the critical section
first (it probes an empty destination). -/
def fstPick (f dest : PPath) : PPath := file_path_build [] f dest
/-- Destination picked by the second worker (it probes a destination
holding the first worker's file). -/
def sndPick (fF fS dest : PPath) : PPath := file_path_build [fstPick fF dest] fS dest
/-- Assemble a global state from the first-acquirer's index `b` and the
first/second workers' states. -/
def mkCState (b : Bool) (fs : List PPath) (lock : Bool) (wF wS : WState) : CState :=
  if b then ⟨fs, lock, wS, wF⟩ else ⟨fs, lock, wF, wS⟩
/-- The reachable states of the two-worker system, by phase: worker `b`
acquires first and runs its critical section (phases 1–4), then the other
worker runs its own (phases 5–8). -/
def phase (f0 f1 dest : PPath) (b : Bool) (ph : Nat) : CState :=
  let fF := if b then f1 else f0
  let fS := if b then f0 else f1
  let p1 := fstPick fF dest
  let p2 := sndPick fF fS dest
  match ph with
  | 0 => ⟨[], false, ⟨0, []⟩, ⟨0, []⟩⟩
  | 1 => mkCState b [] true ⟨1, []⟩ ⟨0, []⟩
  | 2 => mkCState b [] true ⟨2, p1⟩ ⟨0, []⟩
  | 3 => mkCState b [p1] true ⟨3, p1⟩ ⟨0, []⟩
  | 4 => mkCState b [p1] false ⟨4, p1⟩ ⟨0, []⟩
  | 5 => mkCState b [p1] true ⟨4, p1⟩ ⟨1, []⟩
  | 6 => mkCState b [p1] true ⟨4, p1⟩ ⟨2, p2⟩
  | 7 => mkCState b [p1, p2] true ⟨4, p1⟩ ⟨3, p2⟩
  | _ => mkCState b [p1, p2] false ⟨4, p1⟩ ⟨4, p2⟩
/-- Run `organize` on two source files `d0/nm0` and `d1/nm1` that share the
per-name lock, under schedule `sched`. -/
def organizePair (d0 d1 : PPath) (nm0 nm1 : Str) (dest : PPath) (sched : List Bool) : CState :=
  crun (d0 ++ [nm0]) (d1 ++ [nm1]) dest cinit sched
/-- Embeds `file.name.lower()` (line 90) for ASCII names. -/
def lowerName (nm : Str) : Str := nm.map Char.toLower
/-- Claim C1's relation "the two destination paths differ only by the
`(n)` counter suffix on the stem": one path is the other with its stem
rewritten to `"{stem} ({n})"`. -/
def differsByCtr (p q : PPath) : Prop :=
  ∃ n, q = pyWithStem p (pyStm (pname p) ++ (" (".data ++ dec n ++ ")".data)) ∨
       p = pyWithStem q (pyStm (pname q) ++ (" (".data ++ dec n ++ ")".data))
/-- Schedule for the C1 counterexample: worker 0 runs to completion, then
worker 1 (one legal serialization the shared lock allows). -/
def c1sched : List Bool := [false, false, false, false, true, true, true, true]
/-- Final state of the C1 counterexample: files `src/A.txt` and
`src/sub/a.txt`, equal after lower-casing but not equal, one shared lock. -/
def c1final : CState :=
  organizePair ["src".data] ["src".data, "sub".data] "A.txt".data "a.txt".data
    ["dist".data] c1sched
/-- Kind of a Python exception raised while iterating a directory: an
`OSError` (caught by the `except` clause, line 83) or any other exception
(not caught by it). -/
inductive ExcKind where
  | osErr
  | otherErr
deriving DecidableEq
/-- One directory entry as produced by `source_folder.iterdir()`
(lines 75–82): a regular file, a subdirectory with its own entries, an
entry of any other kind (symlink, device, socket, ...; logged and skipped),
or an exception raised at this point of the iteration, ending the
listing. -/
inductive FEntry where
  | file : Str → FEntry
  | dir : Str → List FEntry → FEntry
  | other : Str → FEntry
  | raiseE : ExcKind → FEntry
/-- The `except OSError` clause (lines 83–84): an `OSError` in flight is
caught (and logged); any other exception stays in flight. -/
def handleExcept : List PPath × Option ExcKind → List PPath × Option ExcKind
  | (l, some ExcKind.osErr) => (l, none)
  | r => r
/-- The loop body under `read_folder`'s `try` (lines 74–82): returns the
accumulated file list and the exception in flight at the point the
iteration raised, if any.  A subdirectory contributes the full
`read_folder` result for that child — written inline as
`(handleExcept (loopRun ...)).1`, which is exactly `read_folder`'s body. -/
def loopRun (p : PPath) : List FEntry → List PPath × Option ExcKind
  | [] => ([], none)
  | FEntry.file nm :: rest =>
    let r := loopRun p rest
    ((p ++ [nm]) :: r.1, r.2)
  | FEntry.dir nm ch :: rest =>
    let sub := (handleExcept (loopRun (p ++ [nm]) ch)).1
    let r := loopRun p rest
    (sub ++ r.1, r.2)
  | FEntry.other _ :: rest => loopRun p rest
  | FEntry.raiseE k :: _ => ([], some k)
/-- Embeds `read_folder` (lines 69–86): the loop under `try`, the
`except OSError` clause, and the `finally: return files` (line 86), which
returns the accumulated list whatever exception is in flight — the
function's only `return` statement sits in the `finally` block. -/
def read_folder (p : PPath) (es : List FEntry) : List PPath :=
  (handleExcept (loopRun p es)).1
/-- Claim C4's description of the walk: a file is reached by recursive
descent — a regular-file entry is recorded, a directory entry is descended
into, any other entry kind is skipped, and nothing at or beyond a raising
point of a listing is reached (the entries accumulated before the raise
survive). -/
inductive ReachFile : PPath → List FEntry → PPath → Prop where
  | here (p : PPath) (nm : Str) (rest : List FEntry) :
      ReachFile p (.file nm :: rest) (p ++ [nm])
  | inDir (p : PPath) (nm : Str) (ch rest : List FEntry) (x : PPath) :
      ReachFile (p ++ [nm]) ch x → ReachFile p (.dir nm ch :: rest) x
  | later (p : PPath) (e : FEntry) (rest : List FEntry) (x : PPath) :
      (∀ k, e ≠ .raiseE k) → ReachFile p rest x → ReachFile p (e :: rest) x
/-- An injected OS-level failure inside `copy_file`'s `try` (lines 95–98):
the `mkdir` of the destination's parent fails, or the byte copy fails;
carries the error text `str(e)`. -/
inductive CopyFault where
  | mkdirFail : Str → CopyFault
  | copyFail : Str → CopyFault
deriving DecidableEq
/-- A log line emitted by `copy_file`: the success line of line 99 or the
error line of line 101, which names the source, the destination and the
error detail. -/
inductive LogEntry where
  | copied : PPath → PPath → LogEntry
  | copyFailed : PPath → PPath → Str → LogEntry
deriving DecidableEq
/-- Embeds one `copy_file` call (lines 89–101) with an optional injected
fault: the destination is computed first (line 93); a failing `mkdir`
prevents the copy and a failing copy leaves no destination file; in both
fault cases the `except OSError` clause logs an error with both paths and
the detail, and the worker returns normally. -/
def copy_file (destRoot : PPath) (fs : List PPath) (f : PPath)
    (fault : Option CopyFault) : List PPath × LogEntry :=
  let d := file_path_build fs f destRoot
  match fault with
  | none => (if d ∈ fs then fs else fs ++ [d], LogEntry.copied f d)
  | some (CopyFault.mkdirFail m) => (fs, LogEntry.copyFailed f d m)
  | some (CopyFault.copyFail m) => (fs, LogEntry.copyFailed f d m)
/-- Embeds `folder_copy`'s fan-out (line 117) with per-file injected
faults, sequentially scheduled: `asyncio.gather` waits for every worker,
and since `copy_file` catches its `OSError`s, no worker ever raises into
`gather`. -/
def folder_copy_run (destRoot : PPath) (fs : List PPath) :
    List (PPath × Option CopyFault) → List PPath × List LogEntry
  | [] => (fs, [])
  | (f, flt) :: rest =>
    let s := copy_file destRoot fs f flt
    let r := folder_copy_run destRoot s.1 rest
    (r.1, s.2 :: r.2)
/-- The source path a log entry names. -/
def logSrc : LogEntry → PPath
  | LogEntry.copied s _ => s
  | LogEntry.copyFailed s _ _ => s
/-- Result of `parser.parse_args()` (line 134): parsed argument strings, or
a `SystemExit` carrying a status — `argparse` exits with status 2 on a
parse error (for instance a missing required `--source`), and `SystemExit`
derives from `BaseException`, so `except Exception` does not catch it. -/
inductive ParseResult where
  | ok : Str → Str → ParseResult
  | exit : Nat → ParseResult
deriving DecidableEq
/-- The outcome of `asyncio.run(folder_copy(...))` (line 137) as `cli`
observes it: normal return, or a raised `Exception` with its message. -/
inductive RunOutcome where
  | done : RunOutcome
  | raised : Str → RunOutcome
deriving DecidableEq
/-- Embeds `cli` (lines 120–142): any `Exception` raised by the run is
caught and logged (lines 139–140) and the unconditional `exit(0)`
(line 142) ends the process; a `SystemExit` raised by argument parsing
bypasses the `except Exception` handler and sets the exit status itself. -/
def cli (pr : ParseResult) (run : RunOutcome) : Nat :=
  match pr with
  | ParseResult.exit code => code
  | ParseResult.ok _ _ =>
    match run with
    | RunOutcome.done => 0
    | RunOutcome.raised _ => 0
/-- Embeds `AsyncPath.is_absolute()` on POSIX path strings: the string
starts with a slash. -/
def isAbsolute (s : Str) : Bool := s.head? = some '/'
/-- Embeds the `/` join of `pathlib` on path strings for a relative
right-hand side. -/
def joinPath (base p : Str) : Str := base ++ '/' :: p
/-- Embeds `get_absolute_path` (lines 21–42): an empty path raises
`ValueError` (line 31); an absolute path is returned unchanged (line 35);
otherwise the path is joined onto `current_dir` when supplied, else onto
the working directory `cwd` (line 42). -/
def get_absolute_path (path : Str) (current_dir : Option Str) (cwd : Str) :
    Except Str Str :=
  if path = [] then Except.error "The path can not be empty".data
  else if isAbsolute path then Except.ok path
  else Except.ok (joinPath (current_dir.getD cwd) path)
/-- The process-wide lock registry `_file_name_locks` (line 18): an
association of folded names to lock identities plus the next fresh
identity; `defaultdict(asyncio.Lock)` allocates a fresh lock object on the
first lookup of a key. -/
structure LockRegistry where
  entries : List (Str × Nat)
  next : Nat
deriving DecidableEq
/-- Association-list lookup by folded name. -/
def alook (k : Str) : List (Str × Nat) → Option Nat
  | [] => none
  | (k', v) :: t => if k' = k then some v else alook k t
/-- Embeds `_file_name_locks[file.name.lower()]` (line 90): the name is
folded with `lower()`; an existing entry's lock is returned, a missing
entry allocates a fresh lock and stores it, and nothing is ever removed. -/
def lockFor (r : LockRegistry) (nm : Str) : Nat × LockRegistry :=
  let k := lowerName nm
  match alook k r.entries with
  | some v => (v, r)
  | none => (r.next, ⟨r.entries ++ [(k, r.next)], r.next + 1⟩)
/-- Registry invariant: folded keys are distinct, lock identities are
distinct, and every identity is below the allocation counter. -/
def RegWF (r : LockRegistry) : Prop :=
  (r.entries.map Prod.fst).Nodup ∧ (r.entries.map Prod.snd).Nodup ∧
  ∀ e ∈ r.entries, e.2 < r.next
/-- The empty registry: the module-initialization state of line 18. -/
def regInit : LockRegistry := ⟨[], 0⟩
theorem digitChar_isDigit : ∀ d < 10, isDigitCh (digitChar d) = true := by decide
theorem digitChar_inj : ∀ d < 10, ∀ e < 10, digitChar d = digitChar e → d = e := by decide
theorem decCore_stable : ∀ n f f', n < f → n < f' → decCore f n = decCore f' n := by
  intro n
  induction n using Nat.strong_induction_on with
  | _ n ih =>
    intro f f' hf hf'
    match f, f' with
    | g + 1, g' + 1 =>
      by_cases h : n < 10
      · simp [decCore, h]
      · have h10 : 10 ≤ n := Nat.le_of_not_lt h
        have hdiv : n / 10 < n := Nat.div_lt_self (by omega) (by omega)
        simp only [decCore, h, if_false]
        rw [ih (n / 10) hdiv g g' (by omega) (by omega)]
theorem dec_eq (n : Nat) :
    dec n = if n < 10 then [digitChar n] else dec (n / 10) ++ [digitChar (n % 10)] := by
  by_cases h : n < 10
  · simp [dec, decCore, h]
  · have h10 : 10 ≤ n := Nat.le_of_not_lt h
    have hdiv : n / 10 < n := Nat.div_lt_self (by omega) (by omega)
    have h1 : dec n = decCore n (n / 10) ++ [digitChar (n % 10)] := by
      simp [dec, decCore, h]
    rw [h1, decCore_stable (n / 10) n (n / 10 + 1) (by omega) (by omega), if_neg h]
    rfl
theorem dec_ne_nil (n : Nat) : dec n ≠ [] := by
  rw [dec_eq]
  by_cases h : n < 10 <;> simp [h]
theorem dec_digits (n : Nat) : ∀ c ∈ dec n, isDigitCh c = true := by
  induction n using Nat.strong_induction_on with
  | _ n ih =>
    rw [dec_eq]
    by_cases h : n < 10
    · simp only [h, if_true, List.mem_singleton]
      rintro c rfl
      exact digitChar_isDigit n h
    · have h10 : 10 ≤ n := Nat.le_of_not_lt h
      have hdiv : n / 10 < n := Nat.div_lt_self (by omega) (by omega)
      simp only [h, if_false, List.mem_append, List.mem_singleton]
      rintro c (hc | rfl)
      · exact ih (n / 10) hdiv c hc
      · exact digitChar_isDigit (n % 10) (Nat.mod_lt n (by omega))
theorem dec_length_ge_two (n : Nat) (h : 10 ≤ n) : 2 ≤ (dec n).length := by
  rw [dec_eq]
  simp only [Nat.not_lt.mpr h, if_false]
  have := dec_ne_nil (n / 10)
  have : (dec (n / 10)).length ≠ 0 := by
    simpa [List.length_eq_zero] using this
  simp only [List.length_append, List.length_singleton]
  omega
theorem append_singleton_inj {l₁ l₂ : Str} {a b : Char}
    (h : l₁ ++ [a] = l₂ ++ [b]) : l₁ = l₂ ∧ a = b := by
  have hrev := congrArg List.reverse h
  simp only [List.reverse_append, List.reverse_singleton, List.singleton_append] at hrev
  obtain ⟨hab, hl⟩ := List.cons.inj hrev
  exact ⟨by simpa using congrArg List.reverse hl, hab⟩
theorem dec_inj : ∀ m n : Nat, dec m = dec n → m = n := by
  intro m
  induction m using Nat.strong_induction_on with
  | _ m ih =>
    intro n h
    rw [dec_eq m, dec_eq n] at h
    by_cases hm : m < 10 <;> by_cases hn : n < 10
    · simp only [hm, hn, if_true] at h
      exact digitChar_inj m hm n hn (by simpa using h)
    · simp only [hm, hn, if_true, if_false] at h
      have hlen := congrArg List.length h
      simp only [List.length_append, List.length_singleton, List.length_cons,
        List.length_nil] at hlen
      have hz : (dec (n / 10)).length = 0 := by omega
      exact absurd (List.length_eq_zero.mp hz) (dec_ne_nil (n / 10))
    · simp only [hm, hn, if_true, if_false] at h
      have hlen := congrArg List.length h
      simp only [List.length_append, List.length_singleton, List.length_cons,
        List.length_nil] at hlen
      have hz : (dec (m / 10)).length = 0 := by omega
      exact absurd (List.length_eq_zero.mp hz) (dec_ne_nil (m / 10))
    · simp only [hm, hn, if_false] at h
      obtain ⟨hpre, hdig⟩ := append_singleton_inj h
      have hdivm : m / 10 < m := Nat.div_lt_self (by omega) (by omega)
      have hdiv : m / 10 = n / 10 := ih (m / 10) hdivm (n / 10) hpre
      have hmod : m % 10 = n % 10 :=
        digitChar_inj (m % 10) (Nat.mod_lt m (by omega)) (n % 10) (Nat.mod_lt n (by omega)) hdig
      omega
theorem splitLastDot_eq_none_iff (l : Str) : splitLastDot l = none ↔ '.' ∉ l := by
  induction l with
  | nil => simp [splitLastDot]
  | cons c cs ih =>
    simp only [splitLastDot]
    cases h : splitLastDot cs with
    | some p =>
      have hmem : '.' ∈ cs := by
        by_contra hnot
        rw [ih.mpr hnot] at h
        exact Option.noConfusion h
      obtain ⟨b, a⟩ := p
      simp [List.mem_cons, hmem]
    | none =>
      by_cases hc : c = '.'
      · subst hc; simp
      · simp [hc, ih.mp h, List.mem_cons, Ne.symm hc]
theorem splitLastDot_append {a : Str} (b : Str) (ha : '.' ∉ a) :
    splitLastDot (b ++ '.' :: a) = some (b, a) := by
  induction b with
  | nil =>
    simp only [List.nil_append, splitLastDot]
    rw [(splitLastDot_eq_none_iff a).mpr ha]
    simp
  | cons c cs ih =>
    simp only [List.cons_append, splitLastDot, List.append_eq]
    rw [ih]
theorem splitLastDot_some {l b a : Str} (h : splitLastDot l = some (b, a)) :
    l = b ++ '.' :: a ∧ '.' ∉ a := by
  induction l generalizing b a with
  | nil => simp [splitLastDot] at h
  | cons c cs ih =>
    simp only [splitLastDot] at h
    cases hs : splitLastDot cs with
    | some p =>
      obtain ⟨b', a'⟩ := p
      rw [hs] at h
      simp only [Option.some.injEq, Prod.mk.injEq] at h
      obtain ⟨hb, ha⟩ := h
      obtain ⟨hshape, hdot⟩ := ih hs
      subst hb; subst ha; subst hshape
      simp [hdot]
    | none =>
      rw [hs] at h
      by_cases hc : c = '.'
      · simp only [hc, if_true, Option.some.injEq, Prod.mk.injEq] at h
        obtain ⟨hb, ha⟩ := h
        subst hb; subst ha
        simpa [hc] using (splitLastDot_eq_none_iff cs).mp hs
      · simp [hc] at h
theorem pname_concat (d : PPath) (nm : Str) : pname (d ++ [nm]) = nm := by
  simp [pname, List.getLastD_concat]
theorem pyWithName_concat (d : PPath) (nm nm' : Str) :
    pyWithName (d ++ [nm]) nm' = d ++ [nm'] := by
  simp [pyWithName, List.dropLast_concat]
theorem pyStm_append_pySfx (nm : Str) : pyStm nm ++ pySfx nm = nm := by
  unfold pyStm pySfx
  cases h : splitLastDot nm with
  | some p =>
    obtain ⟨b, a⟩ := p
    obtain ⟨hshape, _⟩ := splitLastDot_some h
    by_cases hcond : b ≠ [] ∧ a ≠ []
    · simp [hcond, hshape]
    · simp [hcond]
  | none => simp
theorem pySfx_of_shape {b a : Str} (hb : b ≠ []) (ha : a ≠ []) (hdot : '.' ∉ a) :
    pySfx (b ++ '.' :: a) = '.' :: a := by
  unfold pySfx
  rw [splitLastDot_append b hdot]
  simp [hb, ha]
theorem pyStm_of_shape {b a : Str} (hb : b ≠ []) (ha : a ≠ []) (hdot : '.' ∉ a) :
    pyStm (b ++ '.' :: a) = b := by
  unfold pyStm
  rw [splitLastDot_append b hdot]
  simp [hb, ha]
theorem pySfx_trailing_dot (x : Str) : pySfx (x ++ ['.']) = [] := by
  unfold pySfx
  rw [show x ++ ['.'] = x ++ '.' :: [] from rfl, splitLastDot_append x (by simp)]
  simp
/-- The suffix of a name is either empty or a dot followed by a nonempty
dot-free remainder. -/
theorem pySfx_cases (nm : Str) :
    pySfx nm = [] ∨ ∃ a, pySfx nm = '.' :: a ∧ a ≠ [] ∧ '.' ∉ a ∧ pyStm nm ≠ [] := by
  unfold pySfx pyStm
  cases h : splitLastDot nm with
  | some p =>
    obtain ⟨b, a⟩ := p
    obtain ⟨_, hdot⟩ := splitLastDot_some h
    by_cases hcond : b ≠ [] ∧ a ≠ []
    · exact Or.inr ⟨a, by simp [hcond], hcond.2, hdot, by simp [hcond, hcond.1]⟩
    · exact Or.inl (by simp [hcond])
  | none => exact Or.inl rfl
theorem cand_eq (file dest : PPath) (k : Nat) :
    cand file dest k = (dest ++ [catComp file]) ++ [candName file k] := by
  induction k with
  | zero =>
    simp [cand, initialCandidate, candName]
  | succ k ih =>
    rw [cand, ih, candName]
    rw [pyWithStem, pname_concat, pyWithName_concat]
theorem candName_zero (file : PPath) :
    candName file 0 = fileName file ++ '.' :: fileExtension file := rfl
/-- Every collision candidate's name extends the computed stem `file_name`. -/
theorem candName_succ (file : PPath) (k : Nat) :
    candName file (k + 1) =
      fileName file ++ ((" (".data ++ dec (k + 1) ++ ")".data) ++ pySfx (candName file k)) := by
  rw [candName, ctrStem, List.append_assoc]
/-- Two runs of decimal digits followed by `')'` determine each other. -/
theorem digit_block_inj :
    ∀ (u v x y : Str), (∀ c ∈ u, isDigitCh c = true) → (∀ c ∈ v, isDigitCh c = true) →
      u ++ ')' :: x = v ++ ')' :: y → u = v ∧ x = y := by
  intro u
  induction u with
  | nil =>
    intro v x y _ hv h
    cases v with
    | nil => simpa using h
    | cons d v' =>
      simp only [List.nil_append, List.cons_append, List.cons.injEq] at h
      have : isDigitCh ')' = true := h.1 ▸ hv d (by simp)
      simp [isDigitCh] at this
  | cons c u' ih =>
    intro v x y hu hv h
    cases v with
    | nil =>
      simp only [List.nil_append, List.cons_append, List.cons.injEq] at h
      have : isDigitCh ')' = true := h.1.symm ▸ hu c (by simp)
      simp [isDigitCh] at this
    | cons d v' =>
      simp only [List.cons_append, List.cons.injEq] at h
      obtain ⟨hcd, hrest⟩ := h
      obtain ⟨hu', hxy⟩ := ih v' x y (fun e he => hu e (by simp [he])) (fun e he => hv e (by simp [he])) hrest
      exact ⟨by rw [hcd, hu'], hxy⟩
theorem candName_injective (file : PPath) : Function.Injective (candName file) := by
  intro k j h
  match k, j with
  | 0, 0 => rfl
  | 0, j + 1 =>
    rw [candName_zero, candName_succ] at h
    have h2 := List.append_cancel_left h
    simp only [List.append_assoc, List.cons_append, List.cons.injEq] at h2
    exact absurd h2.1 (by decide)
  | k + 1, 0 =>
    rw [candName_succ, candName_zero] at h
    have h2 := List.append_cancel_left h
    simp only [List.append_assoc, List.cons_append, List.cons.injEq] at h2
    exact absurd h2.1 (by decide)
  | k + 1, j + 1 =>
    rw [candName_succ file k, candName_succ file j] at h
    have h2 := List.append_cancel_left h
    rw [List.append_assoc, List.append_assoc, List.append_assoc, List.append_assoc] at h2
    have h3 := List.append_cancel_left h2
    rw [show (")".data : Str) = [')'] from rfl] at h3
    simp only [List.cons_append, List.nil_append, List.singleton_append] at h3
    obtain ⟨hdec, _⟩ :=
      digit_block_inj (dec (k + 1)) (dec (j + 1)) _ _ (dec_digits _) (dec_digits _) h3
    rw [dec_inj (k + 1) (j + 1) hdec]
theorem cand_injective (file dest : PPath) : Function.Injective (cand file dest) := by
  intro k j h
  rw [cand_eq file dest k, cand_eq file dest j] at h
  have := List.append_cancel_left h
  exact candName_injective file (by simpa using this)
theorem buildLoop_step (fs : List PPath) (file dest : PPath) (k f : Nat) :
    buildLoop fs file (cand file dest k) k (f + 1) =
      if cand file dest k ∈ fs then
        buildLoop fs file (cand file dest (k + 1)) (k + 1) f
      else cand file dest k := by
  rfl
theorem buildLoop_reaches (fs : List PPath) (file dest : PPath) :
    ∀ fuel k j, j < fuel → cand file dest (k + j) ∉ fs →
      (∀ i < j, cand file dest (k + i) ∈ fs) →
      buildLoop fs file (cand file dest k) k fuel = cand file dest (k + j) := by
  intro fuel
  induction fuel with
  | zero => intro k j hj; omega
  | succ f ih =>
    intro k j hj hfree hmem
    rw [buildLoop_step]
    match j with
    | 0 =>
      rw [if_neg (by simpa using hfree)]
      norm_num
    | j + 1 =>
      rw [if_pos (by simpa using hmem 0 (by omega))]
      rw [show k + (j + 1) = k + 1 + j by omega]
      exact ih (k + 1) j (by omega) (by rw [show k + 1 + j = k + (j + 1) by omega]; exact hfree)
        (fun i hi => by rw [show k + 1 + i = k + (i + 1) by omega]; exact hmem (i + 1) (by omega))
/-- Pigeonhole: among the first `fs.length + 1` candidates one is free. -/
theorem exists_free_cand (fs : List PPath) (file dest : PPath) :
    ∃ j ≤ fs.length, cand file dest j ∉ fs := by
  by_contra hcon
  push_neg at hcon
  have hsub : (List.range (fs.length + 1)).map (cand file dest) ⊆ fs := by
    intro p hp
    simp only [List.mem_map, List.mem_range] at hp
    obtain ⟨j, hj, rfl⟩ := hp
    exact hcon j (by omega)
  have hnodup : ((List.range (fs.length + 1)).map (cand file dest)).Nodup :=
    (List.nodup_range _).map (cand_injective file dest)
  have := (List.subperm_of_subset hnodup hsub).length_le
  simp at this
/-- The collision loop returns the first candidate not present in `fs`;
every earlier candidate is present. -/
theorem file_path_build_spec (fs : List PPath) (file dest : PPath) :
    ∃ j, file_path_build fs file dest = cand file dest j ∧
      cand file dest j ∉ fs ∧ ∀ i < j, cand file dest i ∈ fs := by
  obtain ⟨j₀, hj₀, hfree₀⟩ := exists_free_cand fs file dest
  have hex : ∃ j, cand file dest j ∉ fs := ⟨j₀, hfree₀⟩
  refine ⟨Nat.find hex, ?_, Nat.find_spec hex, ?_⟩
  · have hle : Nat.find hex ≤ j₀ := Nat.find_min' hex hfree₀
    have := buildLoop_reaches fs file dest (fs.length + 1) 0 (Nat.find hex)
      (by omega) (by simpa using Nat.find_spec hex)
      (fun i hi => by
        have := Nat.find_min hex hi
        simpa using Decidable.not_not.mp this)
    simpa [file_path_build] using this
  · intro i hi
    have := Nat.find_min hex hi
    simpa using Decidable.not_not.mp this
theorem file_path_build_not_mem (fs : List PPath) (file dest : PPath) :
    file_path_build fs file dest ∉ fs := by
  obtain ⟨j, heq, hfree, _⟩ := file_path_build_spec fs file dest
  rw [heq]; exact hfree
theorem file_path_build_of_free (fs : List PPath) (file dest : PPath)
    (h : cand file dest 0 ∉ fs) : file_path_build fs file dest = cand file dest 0 := by
  have := buildLoop_reaches fs file dest (fs.length + 1) 0 0 (by omega) (by simpa using h)
    (fun i hi => by omega)
  simpa [file_path_build] using this
theorem file_path_build_of_second (fs : List PPath) (file dest : PPath)
    (h0 : cand file dest 0 ∈ fs) (h1 : cand file dest 1 ∉ fs) :
    file_path_build fs file dest = cand file dest 1 := by
  have hlen : 1 ≤ fs.length := by
    cases fs with
    | nil => simp at h0
    | cons a l => simp
  have := buildLoop_reaches fs file dest (fs.length + 1) 0 1 (by omega) (by simpa using h1)
    (fun i hi => by
      match i, hi with
      | 0, _ => simpa using h0)
  simpa [file_path_build] using this
/-- C2 counterexample: for the file named `a.`, the third candidate the code
builds is `a. (2). (1)` — `with_stem` recomputes the suffix from the current
candidate `a. (1)` (whose `pathlib` suffix is `. (1)`), so the counter
suffixes nest, while the claimed sequence would give `a. (2)`. -/
theorem claim_C2_counterexample :
    file_path_build c2fs c2file c2dest =
      ["dist".data, "without_extension".data, "a. (2). (1)".data] ∧
    claim_file_path_build c2fs c2file c2dest =
      ["dist".data, "without_extension".data, "a. (2)".data] ∧
    file_path_build c2fs c2file c2dest ≠ claim_file_path_build c2fs c2file c2dest :=
  ⟨by decide, by decide, by decide⟩
/-- C2 (amended): the destination-namer loop resolves collisions by
sequential probing: starting from the initial candidate it increments a
counter starting at 1, rewrites the candidate's stem as
`"{stem} ({counter})"` — always from the original stem, while the suffix is
recomputed from the current candidate by the `with_stem` rules (so suffixes
may nest when a rewrite changes how the name parses) — re-checks existence
each time, and returns the first candidate in that sequence for which no
file exists; no gaps are skipped or filled. -/
theorem claim_C2 (fs : List PPath) (file dest : PPath) :
    (∃ j, file_path_build fs file dest = cand file dest j ∧
        cand file dest j ∉ fs ∧ ∀ i < j, cand file dest i ∈ fs) ∧
    cand file dest 0 = initialCandidate file dest ∧
    ∀ k, cand file dest (k + 1) =
      pyWithStem (cand file dest k)
        (fileName file ++ (" (".data ++ dec (k + 1) ++ ")".data)) :=
  ⟨file_path_build_spec fs file dest, rfl, fun _ => rfl⟩
/-- C6: the initial destination candidate is
`destRoot / category / "{stem}.{extension}"` where `category` is the
extension with its leading dot stripped, or `"without_extension"` when the
extension is empty; an extensionless file is routed to the
`without_extension` folder under the name `stem.` with a trailing dot, and
when the initial candidate is free it is exactly what `file_path_build`
returns. -/
theorem claim_C6 (fs : List PPath) (file dest : PPath) :
    cand file dest 0 =
      dest ++ [catComp file, fileName file ++ '.' :: fileExtension file] ∧
    catComp file =
      (if fileExtension file = [] then "without_extension".data else fileExtension file) ∧
    (fileExtension file = [] →
      cand file dest 0 = dest ++ ["without_extension".data, fileName file ++ ['.']]) ∧
    (cand file dest 0 ∉ fs →
      file_path_build fs file dest =
        dest ++ [catComp file, fileName file ++ '.' :: fileExtension file]) := by
  refine ⟨rfl, rfl, ?_, ?_⟩
  · intro h
    simp [cand, initialCandidate, catComp, h]
  · intro h
    rw [file_path_build_of_free fs file dest h]
    rfl
/-- C6 witness: the extensionless file `src/readme` goes to
`dist/without_extension/readme.` (trailing dot). -/
theorem claim_C6_witness :
    cand ["src".data, "readme".data] ["dist".data] 0 =
      ["dist".data, "without_extension".data, "readme.".data] ∧
    file_path_build [] ["src".data, "readme".data] ["dist".data] =
      ["dist".data, "without_extension".data, "readme.".data] := by
  have h := claim_C6 [] ["src".data, "readme".data] ["dist".data]
  refine ⟨?_, ?_⟩
  · rw [h.2.2.1 (by decide)]
    decide
  · rw [h.2.2.2 (by decide)]
    decide
/-- When every file's base candidate is fresh and the base candidates are
pairwise distinct, a run copies every file to its base candidate. -/
theorem seqRun_all_zero (destRoot : PPath) :
    ∀ (files : List PPath) (fs : List PPath),
      (∀ f ∈ files, cand f destRoot 0 ∉ fs) →
      (files.map (fun f => cand f destRoot 0)).Nodup →
      seqRun destRoot fs files =
        (fs ++ files.map (fun f => cand f destRoot 0),
         files.map (fun f => cand f destRoot 0)) := by
  intro files
  induction files with
  | nil => intro fs _ _; simp [seqRun]
  | cons f rest ih =>
    intro fs hfree hnodup
    have hf : cand f destRoot 0 ∉ fs := hfree f (by simp)
    have hd : file_path_build fs f destRoot = cand f destRoot 0 :=
      file_path_build_of_free fs f destRoot hf
    simp only [List.map_cons, List.nodup_cons, List.mem_map] at hnodup
    have hrest := ih (fs ++ [cand f destRoot 0])
      (fun g hg => by
        simp only [List.mem_append, List.mem_singleton]
        rintro (hmem | heq)
        · exact hfree g (by simp [hg]) hmem
        · exact hnodup.1 ⟨g, hg, heq⟩)
      hnodup.2
    simp only [seqRun, copyStep, hd, if_neg hf, hrest, List.map_cons]
    rw [List.append_assoc]
    rfl
/-- When every file's base candidate is taken but its first counter variant
is fresh, and the counter variants are pairwise distinct, a run copies every
file to its `(1)` variant. -/
theorem seqRun_all_one (destRoot : PPath) :
    ∀ (files : List PPath) (fs : List PPath),
      (∀ f ∈ files, cand f destRoot 0 ∈ fs) →
      (∀ f ∈ files, cand f destRoot 1 ∉ fs) →
      (files.map (fun f => cand f destRoot 1)).Nodup →
      seqRun destRoot fs files =
        (fs ++ files.map (fun f => cand f destRoot 1),
         files.map (fun f => cand f destRoot 1)) := by
  intro files
  induction files with
  | nil => intro fs _ _ _; simp [seqRun]
  | cons f rest ih =>
    intro fs htaken hfree hnodup
    have hf0 : cand f destRoot 0 ∈ fs := htaken f (by simp)
    have hf1 : cand f destRoot 1 ∉ fs := hfree f (by simp)
    have hd : file_path_build fs f destRoot = cand f destRoot 1 :=
      file_path_build_of_second fs f destRoot hf0 hf1
    simp only [List.map_cons, List.nodup_cons, List.mem_map] at hnodup
    have hrest := ih (fs ++ [cand f destRoot 1])
      (fun g hg => by
        simp only [List.mem_append]
        exact Or.inl (htaken g (by simp [hg])))
      (fun g hg => by
        simp only [List.mem_append, List.mem_singleton]
        rintro (hmem | heq)
        · exact hfree g (by simp [hg]) hmem
        · exact hnodup.1 ⟨g, hg, heq⟩)
      hnodup.2
    simp only [seqRun, copyStep, hd, if_neg hf1, hrest, List.map_cons]
    rw [List.append_assoc]
    rfl
/-- C3 (amended): starting from an empty destination, under sequential
scheduling of the copy workers, and provided the files' base destination
candidates together with their `(1)` counter variants are pairwise distinct
(which holds when the file names are pairwise distinct and no stem equals
another same-extension stem extended by a counter), running `organize`
twice yields for each source file exactly two distinct destination files —
the base name and the `(1)` counter variant — and the second run overwrites
nothing: every destination of the first run survives. -/
theorem claim_C3 (destRoot : PPath) (files : List PPath)
    (H : (files.map (fun f => cand f destRoot 0) ++
          files.map (fun f => cand f destRoot 1)).Nodup) :
    (seqRun destRoot [] files).2 = files.map (fun f => cand f destRoot 0) ∧
    (seqRun destRoot (seqRun destRoot [] files).1 files).2 =
      files.map (fun f => cand f destRoot 1) ∧
    (seqRun destRoot (seqRun destRoot [] files).1 files).1 =
      files.map (fun f => cand f destRoot 0) ++ files.map (fun f => cand f destRoot 1) ∧
    (∀ f ∈ files,
      cand f destRoot 0 ∈ (seqRun destRoot (seqRun destRoot [] files).1 files).1 ∧
      cand f destRoot 1 ∈ (seqRun destRoot (seqRun destRoot [] files).1 files).1 ∧
      cand f destRoot 0 ≠ cand f destRoot 1) ∧
    (∀ p ∈ (seqRun destRoot [] files).1,
      p ∈ (seqRun destRoot (seqRun destRoot [] files).1 files).1) := by
  have h0nodup : (files.map (fun f => cand f destRoot 0)).Nodup := H.of_append_left
  have h1nodup : (files.map (fun f => cand f destRoot 1)).Nodup := H.of_append_right
  have hdisj := List.disjoint_of_nodup_append H
  have hrun1 := seqRun_all_zero destRoot files [] (by simp) h0nodup
  have hfs1 : (seqRun destRoot [] files).1 = files.map (fun f => cand f destRoot 0) := by
    rw [hrun1, List.nil_append]
  have hrun2 := seqRun_all_one destRoot files (files.map (fun f => cand f destRoot 0))
    (fun f hf => List.mem_map.mpr ⟨f, hf, rfl⟩)
    (fun f hf hmem => hdisj hmem (List.mem_map.mpr ⟨f, hf, rfl⟩))
    h1nodup
  refine ⟨by rw [hrun1], ?_, ?_, ?_, ?_⟩
  · rw [hfs1, hrun2]
  · rw [hfs1, hrun2]
  · intro f hf
    rw [hfs1, hrun2]
    refine ⟨?_, ?_, ?_⟩
    · exact List.mem_append_left _ (List.mem_map.mpr ⟨f, hf, rfl⟩)
    · exact List.mem_append_right _ (List.mem_map.mpr ⟨f, hf, rfl⟩)
    · exact (cand_injective f destRoot).ne (by omega)
  · intro p hp
    rw [hfs1, hrun2]
    rw [hfs1] at hp
    exact List.mem_append_left _ hp
/-- C3 witness: two distinct-named files `src/a.txt`, `src/b.txt`; after two
sequential runs the destination holds `a.txt`, `b.txt`, `a (1).txt`,
`b (1).txt`. -/
theorem claim_C3_witness :
    ((([["src".data, "a.txt".data], ["src".data, "b.txt".data]].map
        (fun f => cand f ["dist".data] 0)) ++
      ([["src".data, "a.txt".data], ["src".data, "b.txt".data]].map
        (fun f => cand f ["dist".data] 1))).Nodup) ∧
    (seqRun ["dist".data]
        (seqRun ["dist".data] [] [["src".data, "a.txt".data], ["src".data, "b.txt".data]]).1
        [["src".data, "a.txt".data], ["src".data, "b.txt".data]]).1 =
      [["dist".data, "txt".data, "a.txt".data], ["dist".data, "txt".data, "b.txt".data],
       ["dist".data, "txt".data, "a (1).txt".data], ["dist".data, "txt".data, "b (1).txt".data]] := by
  refine ⟨by decide, ?_⟩
  have h := claim_C3 ["dist".data] [["src".data, "a.txt".data], ["src".data, "b.txt".data]]
    (by decide)
  rw [h.2.2.1]
  decide
/-- C3 counterexample: for the tree `src/a.txt`, `src/sub/a.txt` (the same
name twice), the second run copies the files to the `(2)` and `(3)` counter
variants, so the second file's destinations are not "the original name and
the `(1)` variant" the claim promises. -/
theorem claim_C3_counterexample :
    (seqRun c3dest (seqRun c3dest [] c3files).1 c3files).2 =
      [["dist".data, "txt".data, "a (2).txt".data],
       ["dist".data, "txt".data, "a (3).txt".data]] ∧
    cand c3f2 c3dest 0 = ["dist".data, "txt".data, "a.txt".data] ∧
    cand c3f2 c3dest 1 = ["dist".data, "txt".data, "a (1).txt".data] ∧
    (["dist".data, "txt".data, "a (3).txt".data] : PPath) ≠
      ["dist".data, "txt".data, "a.txt".data] ∧
    (["dist".data, "txt".data, "a (3).txt".data] : PPath) ≠
      ["dist".data, "txt".data, "a (1).txt".data] :=
  ⟨by decide, by decide, by decide, by decide, by decide⟩
/-- Each scheduler step takes a reachable phase state to a reachable phase
state: the shared lock confines the interleavings to one of the two
serializations. -/
theorem cstep_phase (f0 f1 dest : PPath) (b : Bool) (ph : Nat) (hph : ph ≤ 8) (i : Bool) :
    ∃ b' ph', ph' ≤ 8 ∧
      cstep f0 f1 dest (phase f0 f1 dest b ph) i = phase f0 f1 dest b' ph' := by
  match ph, hph with
  | 0, _ =>
    refine ⟨i, 1, by omega, ?_⟩
    cases i <;> simp [cstep, phase, mkCState]
  | 1, _ =>
    by_cases hib : i = b
    · refine ⟨b, 2, by omega, ?_⟩
      subst hib
      cases i <;> simp [cstep, phase, mkCState, fstPick]
    · refine ⟨b, 1, by omega, ?_⟩
      cases i <;> cases b <;> simp_all [cstep, phase, mkCState]
  | 2, _ =>
    by_cases hib : i = b
    · refine ⟨b, 3, by omega, ?_⟩
      subst hib
      cases i <;> simp [cstep, phase, mkCState]
    · refine ⟨b, 2, by omega, ?_⟩
      cases i <;> cases b <;> simp_all [cstep, phase, mkCState]
  | 3, _ =>
    by_cases hib : i = b
    · refine ⟨b, 4, by omega, ?_⟩
      subst hib
      cases i <;> simp [cstep, phase, mkCState]
    · refine ⟨b, 3, by omega, ?_⟩
      cases i <;> cases b <;> simp_all [cstep, phase, mkCState]
  | 4, _ =>
    by_cases hib : i = b
    · refine ⟨b, 4, by omega, ?_⟩
      subst hib
      cases i <;> simp [cstep, phase, mkCState]
    · refine ⟨b, 5, by omega, ?_⟩
      cases i <;> cases b <;> simp_all [cstep, phase, mkCState]
  | 5, _ =>
    by_cases hib : i = b
    · refine ⟨b, 5, by omega, ?_⟩
      subst hib
      cases i <;> simp [cstep, phase, mkCState]
    · refine ⟨b, 6, by omega, ?_⟩
      cases i <;> cases b <;> simp_all [cstep, phase, mkCState, sndPick, fstPick]
  | 6, _ =>
    by_cases hib : i = b
    · refine ⟨b, 6, by omega, ?_⟩
      subst hib
      cases i <;> simp [cstep, phase, mkCState]
    · refine ⟨b, 7, by omega, ?_⟩
      have hnm : ∀ fF fS : PPath, sndPick fF fS dest ∉ [fstPick fF dest] :=
        fun fF fS => file_path_build_not_mem [fstPick fF dest] fS dest
      cases i <;> cases b <;> simp_all [cstep, phase, mkCState]
  | 7, _ =>
    by_cases hib : i = b
    · refine ⟨b, 7, by omega, ?_⟩
      subst hib
      cases i <;> simp [cstep, phase, mkCState]
    · refine ⟨b, 8, by omega, ?_⟩
      cases i <;> cases b <;> simp_all [cstep, phase, mkCState]
  | 8, _ =>
    refine ⟨b, 8, by omega, ?_⟩
    cases i <;> cases b <;> simp [cstep, phase, mkCState]
/-- Whole-schedule closure of `cstep_phase`. -/
theorem crun_phase (f0 f1 dest : PPath) :
    ∀ (sched : List Bool) (b : Bool) (ph : Nat), ph ≤ 8 →
      ∃ b' ph', ph' ≤ 8 ∧
        crun f0 f1 dest (phase f0 f1 dest b ph) sched = phase f0 f1 dest b' ph' := by
  intro sched
  induction sched with
  | nil => intro b ph hph; exact ⟨b, ph, hph, rfl⟩
  | cons i rest ih =>
    intro b ph hph
    obtain ⟨b1, ph1, hph1, hstep⟩ := cstep_phase f0 f1 dest b ph hph i
    obtain ⟨b', ph', hph', hrun⟩ := ih b1 ph1 hph1
    exact ⟨b', ph', hph', by rw [crun, hstep, hrun]⟩
/-- A phase state in which both workers are done is the final phase. -/
theorem phase_done (f0 f1 dest : PPath) (b : Bool) (ph : Nat) (hph : ph ≤ 8)
    (h0 : (phase f0 f1 dest b ph).w0.pc = 4) (h1 : (phase f0 f1 dest b ph).w1.pc = 4) :
    ph = 8 := by
  match ph, hph with
  | 0, _ => cases b <;> simp [phase, mkCState] at h0 h1
  | 1, _ => cases b <;> simp [phase, mkCState] at h0 h1
  | 2, _ => cases b <;> simp [phase, mkCState] at h0 h1
  | 3, _ => cases b <;> simp [phase, mkCState] at h0 h1
  | 4, _ => cases b <;> simp [phase, mkCState] at h0 h1
  | 5, _ => cases b <;> simp [phase, mkCState] at h0 h1
  | 6, _ => cases b <;> simp [phase, mkCState] at h0 h1
  | 7, _ => cases b <;> simp [phase, mkCState] at h0 h1
  | 8, _ => rfl
/-- The first critical section starts from an empty destination, so the
first pick is the initial candidate. -/
theorem fstPick_eq_cand (f dest : PPath) : fstPick f dest = cand f dest 0 :=
  file_path_build_of_free [] f dest (by simp)
/-- The destination computation depends on the source file only through its
name. -/
theorem cand_congr (f0 f1 dest : PPath) (h : pname f0 = pname f1) (k : Nat) :
    cand f0 dest k = cand f1 dest k := by
  have hfn : fileName f0 = fileName f1 := by unfold fileName; rw [h]
  have hfe : fileExtension f0 = fileExtension f1 := by unfold fileExtension; rw [h]
  have hcn : ∀ j, candName f0 j = candName f1 j := by
    intro j
    induction j with
    | zero => simp [candName, hfn, hfe]
    | succ j ih => simp [candName, ctrStem, hfn, ih]
  rw [cand_eq, cand_eq, show catComp f0 = catComp f1 by unfold catComp; rw [hfe], hcn]
/-- C1 (amended): two source files in different source directories whose
lower-cased names coincide share one per-name lock; under every schedule of
the two copy workers that runs both to completion, both files are copied,
the two destination paths are distinct, and the destination set is exactly
the two picks; when the two names are exactly equal (not merely after
lower-casing) the picks are the base candidate and its `(1)` counter
variant, which differ precisely by the counter-suffix stem rewrite. -/
theorem claim_C1 (d0 d1 dest : PPath) (nm0 nm1 : Str) (sched : List Bool)
    (hlock : lowerName nm0 = lowerName nm1)
    (h0 : (organizePair d0 d1 nm0 nm1 dest sched).w0.pc = 4)
    (h1 : (organizePair d0 d1 nm0 nm1 dest sched).w1.pc = 4) :
    (organizePair d0 d1 nm0 nm1 dest sched).w0.dst ≠
      (organizePair d0 d1 nm0 nm1 dest sched).w1.dst ∧
    ((organizePair d0 d1 nm0 nm1 dest sched).fs =
        [(organizePair d0 d1 nm0 nm1 dest sched).w0.dst,
         (organizePair d0 d1 nm0 nm1 dest sched).w1.dst] ∨
     (organizePair d0 d1 nm0 nm1 dest sched).fs =
        [(organizePair d0 d1 nm0 nm1 dest sched).w1.dst,
         (organizePair d0 d1 nm0 nm1 dest sched).w0.dst]) ∧
    (nm0 = nm1 →
      (((organizePair d0 d1 nm0 nm1 dest sched).w0.dst = cand (d0 ++ [nm0]) dest 0 ∧
        (organizePair d0 d1 nm0 nm1 dest sched).w1.dst = cand (d0 ++ [nm0]) dest 1) ∨
       ((organizePair d0 d1 nm0 nm1 dest sched).w1.dst = cand (d0 ++ [nm0]) dest 0 ∧
        (organizePair d0 d1 nm0 nm1 dest sched).w0.dst = cand (d0 ++ [nm0]) dest 1)) ∧
      cand (d0 ++ [nm0]) dest 1 =
        pyWithStem (cand (d0 ++ [nm0]) dest 0)
          (fileName (d0 ++ [nm0]) ++ (" (".data ++ dec 1 ++ ")".data))) := by
  clear hlock
  obtain ⟨b, ph, hph, hfin⟩ :=
    crun_phase (d0 ++ [nm0]) (d1 ++ [nm1]) dest sched false 0 (by omega)
  have hfin' : organizePair d0 d1 nm0 nm1 dest sched =
      phase (d0 ++ [nm0]) (d1 ++ [nm1]) dest b ph := by
    rw [organizePair, show cinit = phase (d0 ++ [nm0]) (d1 ++ [nm1]) dest false 0 from rfl,
      hfin]
  rw [hfin'] at h0 h1 ⊢
  have hph8 := phase_done (d0 ++ [nm0]) (d1 ++ [nm1]) dest b ph hph h0 h1
  subst hph8
  have hsame : nm0 = nm1 → ∀ k, cand (d0 ++ [nm0]) dest k = cand (d1 ++ [nm1]) dest k :=
    fun hnm => cand_congr (d0 ++ [nm0]) (d1 ++ [nm1]) dest
      (by rw [pname_concat, pname_concat, hnm])
  cases b with
  | false =>
    have hnm2 : sndPick (d0 ++ [nm0]) (d1 ++ [nm1]) dest ∉ [fstPick (d0 ++ [nm0]) dest] :=
      file_path_build_not_mem [fstPick (d0 ++ [nm0]) dest] (d1 ++ [nm1]) dest
    have e0 : (phase (d0 ++ [nm0]) (d1 ++ [nm1]) dest false 8).w0.dst =
        fstPick (d0 ++ [nm0]) dest := by simp [phase, mkCState]
    have e1 : (phase (d0 ++ [nm0]) (d1 ++ [nm1]) dest false 8).w1.dst =
        sndPick (d0 ++ [nm0]) (d1 ++ [nm1]) dest := by simp [phase, mkCState]
    have efs : (phase (d0 ++ [nm0]) (d1 ++ [nm1]) dest false 8).fs =
        [fstPick (d0 ++ [nm0]) dest, sndPick (d0 ++ [nm0]) (d1 ++ [nm1]) dest] := by
      simp [phase, mkCState]
    rw [e0, e1, efs]
    refine ⟨?_, Or.inl rfl, ?_⟩
    · intro heq
      exact hnm2 (by simp [heq.symm])
    · intro hnm
      refine ⟨Or.inl ⟨fstPick_eq_cand (d0 ++ [nm0]) dest, ?_⟩, rfl⟩
      rw [sndPick]
      have hmem : cand (d1 ++ [nm1]) dest 0 ∈ [fstPick (d0 ++ [nm0]) dest] := by
        rw [fstPick_eq_cand, hsame hnm 0]
        exact List.mem_singleton.mpr rfl
      have hnotmem : cand (d1 ++ [nm1]) dest 1 ∉ [fstPick (d0 ++ [nm0]) dest] := by
        rw [fstPick_eq_cand, hsame hnm 0]
        simp only [List.mem_singleton]
        rw [← hsame hnm 0, ← hsame hnm 1]
        exact (cand_injective (d0 ++ [nm0]) dest).ne (by omega)
      rw [file_path_build_of_second _ _ _ hmem hnotmem, ← hsame hnm 1]
  | true =>
    have hnm2 : sndPick (d1 ++ [nm1]) (d0 ++ [nm0]) dest ∉ [fstPick (d1 ++ [nm1]) dest] :=
      file_path_build_not_mem [fstPick (d1 ++ [nm1]) dest] (d0 ++ [nm0]) dest
    have e0 : (phase (d0 ++ [nm0]) (d1 ++ [nm1]) dest true 8).w0.dst =
        sndPick (d1 ++ [nm1]) (d0 ++ [nm0]) dest := by simp [phase, mkCState]
    have e1 : (phase (d0 ++ [nm0]) (d1 ++ [nm1]) dest true 8).w1.dst =
        fstPick (d1 ++ [nm1]) dest := by simp [phase, mkCState]
    have efs : (phase (d0 ++ [nm0]) (d1 ++ [nm1]) dest true 8).fs =
        [fstPick (d1 ++ [nm1]) dest, sndPick (d1 ++ [nm1]) (d0 ++ [nm0]) dest] := by
      simp [phase, mkCState]
    rw [e0, e1, efs]
    refine ⟨?_, Or.inr rfl, ?_⟩
    · intro heq
      exact hnm2 (by simp [heq])
    · intro hnm
      have hf1 : fstPick (d1 ++ [nm1]) dest = cand (d0 ++ [nm0]) dest 0 := by
        rw [fstPick_eq_cand, ← hsame hnm 0]
      refine ⟨Or.inr ⟨hf1, ?_⟩, rfl⟩
      rw [sndPick]
      have hmem : cand (d0 ++ [nm0]) dest 0 ∈ [fstPick (d1 ++ [nm1]) dest] := by
        rw [hf1]
        exact List.mem_singleton.mpr rfl
      have hnotmem : cand (d0 ++ [nm0]) dest 1 ∉ [fstPick (d1 ++ [nm1]) dest] := by
        rw [hf1]
        simp only [List.mem_singleton]
        exact (cand_injective (d0 ++ [nm0]) dest).ne (by omega)
      rw [file_path_build_of_second _ _ _ hmem hnotmem]
/-- C1 witness: `src/a.txt` and `src/sub/a.txt` under an interleaved
schedule in which worker 1 attempts the lock while worker 0 holds it. -/
theorem claim_C1_witness :
    lowerName "a.txt".data = lowerName "a.txt".data ∧
    (organizePair ["src".data] ["src".data, "sub".data] "a.txt".data "a.txt".data
        ["dist".data] [false, true, false, false, false, true, true, true, true]).w0.pc = 4 ∧
    (organizePair ["src".data] ["src".data, "sub".data] "a.txt".data "a.txt".data
        ["dist".data] [false, true, false, false, false, true, true, true, true]).w1.pc = 4 ∧
    (organizePair ["src".data] ["src".data, "sub".data] "a.txt".data "a.txt".data
        ["dist".data] [false, true, false, false, false, true, true, true, true]).w0.dst ≠
      (organizePair ["src".data] ["src".data, "sub".data] "a.txt".data "a.txt".data
        ["dist".data] [false, true, false, false, false, true, true, true, true]).w1.dst :=
  ⟨by decide, by decide, by decide,
    (claim_C1 ["src".data] ["src".data, "sub".data] ["dist".data] "a.txt".data "a.txt".data
      [false, true, false, false, false, true, true, true, true]
      (by decide) (by decide) (by decide)).1⟩
/-- C1 counterexample: `src/A.txt` and `src/sub/a.txt` have the same
lower-cased name, so they share the per-name lock, yet their destinations
`dist/txt/A.txt` and `dist/txt/a.txt` differ by letter case, not by a
`(n)` counter suffix on the stem — refuting the claim's "differing only by
the counter suffix" for merely case-insensitively equal names. -/
theorem claim_C1_counterexample :
    lowerName "A.txt".data = lowerName "a.txt".data ∧
    "A.txt".data ≠ "a.txt".data ∧
    c1final.w0.pc = 4 ∧ c1final.w1.pc = 4 ∧
    c1final.w0.dst = ["dist".data, "txt".data, "A.txt".data] ∧
    c1final.w1.dst = ["dist".data, "txt".data, "a.txt".data] ∧
    ¬ differsByCtr ["dist".data, "txt".data, "A.txt".data]
        ["dist".data, "txt".data, "a.txt".data] := by
  refine ⟨by decide, by decide, by decide, by decide, by decide, by decide, ?_⟩
  rintro ⟨n, h | h⟩
  · rw [pyWithStem, pyWithName,
      show pySfx (pname (["dist".data, "txt".data, "A.txt".data] : PPath)) = ".txt".data
        from by decide,
      show pyStm (pname (["dist".data, "txt".data, "A.txt".data] : PPath)) = "A".data
        from by decide,
      show (["dist".data, "txt".data, "A.txt".data] : PPath).dropLast =
        ["dist".data, "txt".data] from by decide] at h
    have h3 := congrArg (fun l : PPath => l.getLastD []) h
    simp only [List.getLastD_concat] at h3
    rw [show (["dist".data, "txt".data, "a.txt".data] : PPath) =
      ["dist".data, "txt".data] ++ ["a.txt".data] from rfl] at h3
    simp only [List.getLastD_concat] at h3
    simp only [List.cons_append, List.nil_append, List.singleton_append,
      List.cons.injEq] at h3
    exact absurd h3.1 (by decide)
  · rw [pyWithStem, pyWithName,
      show pySfx (pname (["dist".data, "txt".data, "a.txt".data] : PPath)) = ".txt".data
        from by decide,
      show pyStm (pname (["dist".data, "txt".data, "a.txt".data] : PPath)) = "a".data
        from by decide,
      show (["dist".data, "txt".data, "a.txt".data] : PPath).dropLast =
        ["dist".data, "txt".data] from by decide] at h
    have h3 := congrArg (fun l : PPath => l.getLastD []) h
    simp only [List.getLastD_concat] at h3
    rw [show (["dist".data, "txt".data, "A.txt".data] : PPath) =
      ["dist".data, "txt".data] ++ ["A.txt".data] from rfl] at h3
    simp only [List.getLastD_concat] at h3
    simp only [List.cons_append, List.nil_append, List.singleton_append,
      List.cons.injEq] at h3
    exact absurd h3.1 (by decide)
theorem handleExcept_fst (r : List PPath × Option ExcKind) : (handleExcept r).1 = r.1 := by
  obtain ⟨l, e⟩ := r
  cases e with
  | none => rfl
  | some k => cases k <;> rfl
theorem mem_loopRun : ∀ (p : PPath) (es : List FEntry) (x : PPath),
    x ∈ (loopRun p es).1 ↔ ReachFile p es x := by
  intro p es
  induction p, es using loopRun.induct with
  | case1 p =>
    intro x
    simp only [loopRun, List.not_mem_nil, false_iff]
    intro h
    cases h
  | case2 p nm rest ih =>
    intro x
    simp only [loopRun, List.mem_cons]
    constructor
    · rintro (rfl | hx)
      · exact ReachFile.here p nm rest
      · exact ReachFile.later p _ rest x (fun k h => FEntry.noConfusion h) ((ih x).mp hx)
    · intro h
      cases h with
      | here => exact Or.inl rfl
      | later _ _ _ _ hne hr => exact Or.inr ((ih x).mpr hr)
  | case3 p nm ch rest ihch ihrest =>
    intro x
    simp only [loopRun, handleExcept_fst, List.mem_append]
    constructor
    · rintro (hx | hx)
      · exact ReachFile.inDir p nm ch rest x ((ihch x).mp hx)
      · exact ReachFile.later p _ rest x (fun k h => FEntry.noConfusion h) ((ihrest x).mp hx)
    · intro h
      cases h with
      | inDir _ _ _ _ _ hch => exact Or.inl ((ihch x).mpr hch)
      | later _ _ _ _ hne hr => exact Or.inr ((ihrest x).mpr hr)
  | case4 p a rest ih =>
    intro x
    simp only [loopRun]
    constructor
    · intro hx
      exact ReachFile.later p _ rest x (fun k h => FEntry.noConfusion h) ((ih x).mp hx)
    · intro h
      cases h with
      | later _ _ _ _ hne hr => exact (ih x).mpr hr
  | case5 p k tail =>
    intro x
    simp only [loopRun, List.not_mem_nil, false_iff]
    intro h
    cases h with
    | later _ _ _ _ hne hr => exact hne k rfl
/-- C4: the walk returns exactly the regular files reachable by recursive
descent from the root: directory children are recursed into, regular files
are recorded, every other entry kind is skipped, and a subtree whose
listing raises an OS-level error contributes the entries accumulated before
the error; the error is swallowed, never aborting the walk (the function is
total and its result is characterized entry by entry). -/
theorem claim_C4 (p : PPath) (es : List FEntry) (x : PPath) :
    x ∈ read_folder p es ↔ ReachFile p es x := by
  rw [read_folder, handleExcept_fst]
  exact mem_loopRun p es x
/-- C10: `read_folder` never propagates any exception: the `finally`-block
`return files` is its sole return statement, so for every input — whatever
exception the loop left in flight, `OSError` or not — the call returns
normally with the files accumulated so far; witnessed concretely by a
listing that raises a non-`OSError` immediately. -/
theorem claim_C10 :
    (∀ (p : PPath) (es : List FEntry), read_folder p es = (loopRun p es).1) ∧
    (loopRun [] [FEntry.raiseE ExcKind.otherErr]).2 = some ExcKind.otherErr ∧
    read_folder [] [FEntry.raiseE ExcKind.otherErr] = [] :=
  ⟨fun _ es => handleExcept_fst _, by simp [loopRun], by simp [read_folder, loopRun, handleExcept]⟩
theorem logSrc_copy_file (destRoot : PPath) (fs : List PPath) (f : PPath)
    (flt : Option CopyFault) : logSrc (copy_file destRoot fs f flt).2 = f := by
  match flt with
  | none => rfl
  | some (CopyFault.mkdirFail m) => rfl
  | some (CopyFault.copyFail m) => rfl
/-- C5: an OS-level failure during directory creation or during the byte
copy is logged with both the source and destination paths plus the error
detail, the worker returns normally with the filesystem unchanged, and the
failure never affects its siblings: the orchestrator produces exactly one
log entry per launched worker, in launch order, each naming its own file,
whatever faults are injected anywhere. -/
theorem claim_C5 (destRoot : PPath) (fs : List PPath) (f : PPath) (fault : CopyFault) :
    (∃ m, (fault = CopyFault.mkdirFail m ∨ fault = CopyFault.copyFail m) ∧
      copy_file destRoot fs f (some fault) =
        (fs, LogEntry.copyFailed f (file_path_build fs f destRoot) m)) ∧
    ∀ (jobs : List (PPath × Option CopyFault)) (fs₀ : List PPath),
      (folder_copy_run destRoot fs₀ jobs).2.map logSrc = jobs.map Prod.fst := by
  constructor
  · match fault with
    | CopyFault.mkdirFail m => exact ⟨m, Or.inl rfl, rfl⟩
    | CopyFault.copyFail m => exact ⟨m, Or.inr rfl, rfl⟩
  · intro jobs
    induction jobs with
    | nil => intro fs₀; rfl
    | cons j rest ih =>
      intro fs₀
      obtain ⟨f', flt⟩ := j
      simp only [folder_copy_run, List.map_cons, logSrc_copy_file, ih]
/-- C7 counterexample: an invocation whose argument parsing fails (for
instance, the required `--source` flag is missing) ends the process with
argparse's status 2, not 0: the `SystemExit` bypasses `except Exception`
and `exit(0)` is never reached. -/
theorem claim_C7_counterexample :
    cli (ParseResult.exit 2) RunOutcome.done = 2 ∧ (2 : Nat) ≠ 0 :=
  ⟨rfl, by decide⟩
/-- C7 (amended): for every invocation whose argument parsing succeeds, the
process exit code is 0, even when the run raised an error that was caught
and logged — run failures are never surfaced via exit status. -/
theorem claim_C7 (s o : Str) (run : RunOutcome) : cli (ParseResult.ok s o) run = 0 := by
  cases run <;> rfl
/-- C8 counterexample: with a relative base directory supplied, the
resolver returns a relative path, refuting "returns ..., which is
absolute" as a universal statement. -/
theorem claim_C8_counterexample :
    ("x".data : Str) ≠ [] ∧ isAbsolute "x".data = false ∧
    get_absolute_path "x".data (some "rel".data) "/base".data =
      Except.ok "rel/x".data ∧
    isAbsolute "rel/x".data = false :=
  ⟨by decide, by decide, by rfl, by decide⟩
/-- C8 (amended): the empty path fails with the invalid-input error; an
absolute path is returned unchanged; a non-empty relative path is joined
onto the supplied base directory (or onto the working directory when no
base is supplied), and the result is absolute whenever that base is
absolute — in particular always when no base is supplied, the working
directory being absolute. -/
theorem claim_C8 (path : Str) (current_dir : Option Str) (cwd : Str) :
    (path = [] → get_absolute_path path current_dir cwd =
      Except.error "The path can not be empty".data) ∧
    (isAbsolute path = true → get_absolute_path path current_dir cwd = Except.ok path) ∧
    (path ≠ [] → isAbsolute path = false →
      get_absolute_path path current_dir cwd =
        Except.ok (joinPath (current_dir.getD cwd) path) ∧
      (isAbsolute (current_dir.getD cwd) = true →
        isAbsolute (joinPath (current_dir.getD cwd) path) = true)) := by
  refine ⟨?_, ?_, ?_⟩
  · intro h
    simp [get_absolute_path, h]
  · intro h
    have hne : path ≠ [] := by
      intro hnil
      rw [hnil] at h
      simp [isAbsolute] at h
    simp [get_absolute_path, hne, h]
  · intro hne habs
    refine ⟨by simp [get_absolute_path, hne, habs], ?_⟩
    intro hbase
    match hb : current_dir.getD cwd with
    | [] => rw [hb] at hbase; simp [isAbsolute] at hbase
    | c :: b' =>
      rw [hb] at hbase
      simp only [isAbsolute, List.head?, Option.some.injEq] at hbase
      simp [joinPath, isAbsolute, hbase]
/-- C8 witness: resolving the relative path `x` with no base against the
working directory `/cwd` yields an absolute path. -/
theorem claim_C8_witness :
    ("x".data : Str) ≠ [] ∧ isAbsolute "x".data = false ∧
    get_absolute_path "x".data none "/cwd".data =
      Except.ok (joinPath ((none : Option Str).getD "/cwd".data) "x".data) ∧
    isAbsolute (joinPath ((none : Option Str).getD "/cwd".data) "x".data) = true :=
  ⟨by decide, by decide,
   ((claim_C8 "x".data none "/cwd".data).2.2 (by decide) (by decide)).1,
   ((claim_C8 "x".data none "/cwd".data).2.2 (by decide) (by decide)).2 (by decide)⟩
theorem alook_eq_none_iff (k : Str) : ∀ l, alook k l = none ↔ k ∉ l.map Prod.fst := by
  intro l
  induction l with
  | nil => simp [alook]
  | cons e t ih =>
    obtain ⟨k', v⟩ := e
    by_cases h : k' = k
    · subst h
      simp [alook]
    · simp [alook, h, ih, Ne.symm h]
theorem alook_mem {k : Str} : ∀ {l} {v : Nat}, alook k l = some v → v ∈ l.map Prod.snd := by
  intro l
  induction l with
  | nil => intro v h; simp [alook] at h
  | cons e t ih =>
    obtain ⟨k', w⟩ := e
    intro v h
    by_cases hk : k' = k
    · simp [alook, hk] at h
      simp [h]
    · simp only [alook, if_neg hk] at h
      simp [ih h]
theorem alook_append_self {k : Str} {v : Nat} : ∀ {l}, alook k l = none →
    alook k (l ++ [(k, v)]) = some v := by
  intro l
  induction l with
  | nil => intro _; simp [alook]
  | cons e t ih =>
    obtain ⟨k', w⟩ := e
    intro h
    by_cases hk : k' = k
    · simp [alook, hk] at h
    · simp only [alook, if_neg hk] at h ⊢
      exact ih h
theorem alook_append_ne {k k' : Str} {v : Nat} (hne : k ≠ k') :
    ∀ l, alook k' (l ++ [(k, v)]) = alook k' l := by
  intro l
  induction l with
  | nil =>
    simp only [List.nil_append, alook]
    rw [if_neg hne]
  | cons e t ih =>
    obtain ⟨k0, w⟩ := e
    simp only [List.cons_append, alook, List.append_eq, ih]
theorem alook_ne_of_nodup {k k' : Str} (hne : k ≠ k') :
    ∀ {l} {v w : Nat}, (l.map Prod.fst).Nodup → (l.map Prod.snd).Nodup →
      alook k l = some v → alook k' l = some w → v ≠ w := by
  intro l
  induction l with
  | nil => intro v w _ _ h; simp [alook] at h
  | cons e t ih =>
    obtain ⟨k0, v0⟩ := e
    intro v w hk hv h h'
    simp only [List.map_cons, List.nodup_cons] at hk hv
    simp only [alook] at h h'
    by_cases h0 : k0 = k
    · have hk0 : ¬ (k0 = k') := by rw [h0]; exact hne
      rw [if_pos h0] at h
      rw [if_neg hk0] at h'
      obtain rfl : v0 = v := by simpa using h
      intro hvw
      exact hv.1 (hvw ▸ alook_mem h')
    · rw [if_neg h0] at h
      by_cases h1 : k0 = k'
      · rw [if_pos h1] at h'
        obtain rfl : v0 = w := by simpa using h'
        intro hvw
        exact hv.1 (hvw ▸ alook_mem h)
      · rw [if_neg h1] at h'
        exact ih hk.2 hv.2 h h'
/-- C9: the lock registry maps each lower-cased name to exactly one lock
for the lifetime of the process: it starts empty and well formed, every
lookup preserves well-formedness, looking up a name with the same folded
form returns the same lock identity, names with different folded forms get
different identities, and entries are never removed — the registry only
grows. -/
theorem claim_C9 (r : LockRegistry) (hWF : RegWF r) (nm nm' : Str) :
    RegWF regInit ∧
    RegWF (lockFor r nm).2 ∧
    (lowerName nm' = lowerName nm →
      (lockFor (lockFor r nm).2 nm').1 = (lockFor r nm).1) ∧
    (lowerName nm' ≠ lowerName nm →
      (lockFor (lockFor r nm).2 nm').1 ≠ (lockFor r nm).1) ∧
    (∀ e ∈ r.entries, e ∈ (lockFor r nm).2.entries) := by
  obtain ⟨hkeys, hvals, hbound⟩ := hWF
  have hinit : RegWF regInit := by
    refine ⟨by simp [regInit], by simp [regInit], ?_⟩
    intro e he
    simp [regInit] at he
  have hboundv : ∀ {kq w}, alook kq r.entries = some w → w < r.next := by
    intro kq w hl
    obtain ⟨e, he, hev⟩ := List.mem_map.mp (alook_mem hl)
    exact hev ▸ hbound e he
  cases hcase : alook (lowerName nm) r.entries with
  | some v =>
    have hres : lockFor r nm = (v, r) := by
      rw [lockFor]
      simp only [hcase]
    rw [hres]
    refine ⟨hinit, ⟨hkeys, hvals, hbound⟩, ?_, ?_, fun e he => he⟩
    · intro hfold
      rw [lockFor]
      simp only [hfold, hcase]
    · intro hfold
      rw [lockFor]
      cases hcase' : alook (lowerName nm') r.entries with
      | some w =>
        simp only [hcase']
        exact alook_ne_of_nodup hfold hkeys hvals hcase' hcase
      | none =>
        simp only [hcase']
        have := hboundv hcase
        omega
  | none =>
    have hres : lockFor r nm =
        (r.next, ⟨r.entries ++ [(lowerName nm, r.next)], r.next + 1⟩) := by
      rw [lockFor]
      simp only [hcase]
    rw [hres]
    have hknot : lowerName nm ∉ r.entries.map Prod.fst := (alook_eq_none_iff _ _).mp hcase
    have hvnot : r.next ∉ r.entries.map Prod.snd := by
      intro hmem
      obtain ⟨e, he, hev⟩ := List.mem_map.mp hmem
      exact absurd (hev ▸ hbound e he) (by omega)
    have hWF2 : RegWF ⟨r.entries ++ [(lowerName nm, r.next)], r.next + 1⟩ := by
      refine ⟨?_, ?_, ?_⟩
      · rw [List.map_append]
        exact hkeys.append (by simp) (by simpa [List.disjoint_singleton] using hknot)
      · rw [List.map_append]
        exact hvals.append (by simp) (by simpa [List.disjoint_singleton] using hvnot)
      · intro e he
        rcases List.mem_append.mp he with he | he
        · exact Nat.lt_succ_of_lt (hbound e he)
        · simp only [List.mem_singleton] at he
          rw [he]
          exact Nat.lt_succ_self _
    refine ⟨hinit, hWF2, ?_, ?_, ?_⟩
    · intro hfold
      rw [lockFor]
      simp only [hfold, alook_append_self hcase]
    · intro hfold
      rw [lockFor]
      cases hcase' : alook (lowerName nm')
          (r.entries ++ [(lowerName nm, r.next)]) with
      | some w =>
        simp only [hcase']
        rw [alook_append_ne (Ne.symm hfold) r.entries] at hcase'
        have := hboundv hcase'
        omega
      | none =>
        simp only [hcase']
        omega
    · intro e he
      exact List.mem_append_left _ he
/-- C9 witness: from the empty registry, `A.txt` and `a.txt` fold to the
same key and receive the same lock instance. -/
theorem claim_C9_witness :
    RegWF regInit ∧
    lowerName "a.txt".data = lowerName "A.txt".data ∧
    (lockFor (lockFor regInit "A.txt".data).2 "a.txt".data).1 =
      (lockFor regInit "A.txt".data).1 :=
  ⟨(claim_C9 regInit ⟨by simp [regInit], by simp [regInit], by simp [regInit]⟩
      "A.txt".data "a.txt".data).1,
   by decide,
   (claim_C9 regInit ⟨by simp [regInit], by simp [regInit], by simp [regInit]⟩
      "A.txt".data "a.txt".data).2.2.1 (by decide)⟩
